import Mathlib

/-!
Shallow embedding of the `cznicb` in-memory KV store
(`index/store/cznicb/cznicb.go`): a mutex-serialized adapter over an
ordered byte-key/byte-value map, with a forward iterator and a batch
protocol with per-key merge chains.

Modelling conventions:
* A Go byte slice `[]byte` is `GoSlice := Option Bytes`; `none` is the nil
  slice (the tombstone value), `some bs` a non-nil slice with contents `bs`.
  Keys are compared by `bytes.Compare`, which identifies the nil and empty
  slices, so keys are modelled as plain `Bytes`.
* The external `cznic/b` tree is modelled as an association list sorted
  strictly ascending by `bytesCompare`; an enumerator is the suffix of
  entries not yet consumed.  `Enumerator.Next` at the end returns nil
  interfaces and the `io.EOF` error, modelled by `GoErr.eof`.
* A Go `interface{}` field that may be the nil interface is wrapped in one
  more `Option`: an interface holding a typed-nil `[]byte` is `some none`,
  which is *not* the nil interface `none` (Go's typed-nil semantics).
* The store's mutex only serializes operations; the embedding is the
  sequential semantics of each operation.
* `Batch.Execute` iterates the Go map `ms` in unspecified order; the model
  fixes insertion order by keeping `ms` as an association list.
-/

namespace Cznicb

/-- Byte strings, the keys and value contents of the store. -/
abbrev Bytes : Type := List Nat

/-- A Go `[]byte`: `none` is the nil slice (tombstone), `some bs` a non-nil slice. -/
abbrev GoSlice : Type := Option Bytes

/-- `itemCompare` from cznicb.go: `bytes.Compare`, byte-wise lexicographic order. -/
def bytesCompare : Bytes → Bytes → Ordering
  | [], [] => Ordering.eq
  | [], _ :: _ => Ordering.lt
  | _ :: _, [] => Ordering.gt
  | a :: as, b :: bs =>
    if a < b then Ordering.lt
    else if b < a then Ordering.gt
    else bytesCompare as bs

/-- The `cznic/b` tree: entries sorted strictly ascending by `bytesCompare` on keys. -/
abbrev Tree : Type := List (Bytes × GoSlice)

/-- Strict-ascending key order, the invariant the external ordered map maintains. -/
def TreeSorted (t : Tree) : Prop :=
  t.Pairwise (fun p q => bytesCompare p.1 q.1 = Ordering.lt)

/-- `t.Get(k)`: `none` when the key is absent (`ok = false`), `some v` when
present with stored slice `v` (which may itself be the nil slice). -/
def treeGet : Tree → Bytes → Option GoSlice
  | [], _ => none
  | (k0, v0) :: rest, k =>
    if bytesCompare k k0 = Ordering.eq then some v0 else treeGet rest k

/-- `t.Set(k, v)`: insert-or-replace keeping the sorted order. -/
def treeSet : Tree → Bytes → GoSlice → Tree
  | [], k, v => [(k, v)]
  | (k0, v0) :: rest, k, v =>
    match bytesCompare k k0 with
    | Ordering.lt => (k, v) :: (k0, v0) :: rest
    | Ordering.eq => (k0, v) :: rest
    | Ordering.gt => (k0, v0) :: treeSet rest k v

/-- `t.Delete(k)`: remove the key if present. -/
def treeDelete : Tree → Bytes → Tree
  | [], _ => []
  | (k0, v0) :: rest, k =>
    match bytesCompare k k0 with
    | Ordering.lt => (k0, v0) :: rest
    | Ordering.eq => rest
    | Ordering.gt => (k0, v0) :: treeDelete rest k

/-- `t.Seek(k)`: an enumerator positioned at the first key `≥ k`
(the suffix of entries whose key is not `< k`). -/
def treeSeek : Tree → Bytes → Tree
  | [], _ => []
  | (k0, v0) :: rest, k =>
    if bytesCompare k0 k = Ordering.lt then treeSeek rest k else (k0, v0) :: rest

/-- The Go `error` values the iterator plumbing distinguishes:
nil, `io.EOF` (from `Enumerator.Next`), and the package's `iteratorDoneErr` sentinel. -/
inductive GoErr : Type
  | noErr : GoErr
  | eof : GoErr
  | done : GoErr
deriving DecidableEq, Repr

/-- `Enumerator.Next()`: yields the current entry (as interface values) and the
advanced enumerator; at the end it yields nil interfaces and `io.EOF`. -/
def enumNext : Tree → (Option Bytes × Option GoSlice × GoErr) × Tree
  | [] => ((none, none, GoErr.eof), [])
  | (k0, v0) :: rest => ((some k0, some v0, GoErr.noErr), rest)

/-- The `Iterator` struct: enumerator plus cached `currK`/`currV`/`currErr`.
`currK : Option Bytes` is the interface that held the key (`none` = nil
interface); `currV : Option GoSlice` is the interface that held the value, so
`some none` is an interface holding a typed-nil `[]byte` — not the nil interface. -/
structure Iterator : Type where
  e : Tree
  currK : Option Bytes
  currV : Option GoSlice
  currErr : GoErr

/-- `Iterator.Next()`: once `currErr` is non-nil the iterator pins the done
sentinel and clears the pair; otherwise it takes one enumerator step. -/
def Iterator.next (w : Iterator) : Iterator :=
  if w.currErr ≠ GoErr.noErr then
    { w with currK := none, currV := none, currErr := GoErr.done }
  else
    match enumNext w.e with
    | ((k, v, err), rest) => { e := rest, currK := k, currV := v, currErr := err }

/-- `Iterator.Seek(k)`: reset the cached state, reseek the enumerator in the
store's tree `t`, then take one `Next` step.  All prior iterator state is
overwritten, so the resulting iterator is a function of `t` and `k`. -/
def Iterator.seek (t : Tree) (k : Bytes) : Iterator :=
  Iterator.next { e := treeSeek t k, currK := none, currV := none, currErr := GoErr.noErr }

/-- `Iterator.SeekFirst()`: `t.SeekFirst()` fails with `io.EOF` on an empty
tree, in which case `currErr` is set to the done sentinel before the `Next` step. -/
def Iterator.seekFirst (t : Tree) : Iterator :=
  if t.isEmpty then
    Iterator.next { e := [], currK := none, currV := none, currErr := GoErr.done }
  else
    Iterator.next { e := t, currK := none, currV := none, currErr := GoErr.noErr }

/-- `Iterator.Current()`: `(nil, nil, false)` when the done sentinel is set or
either cached interface is nil; otherwise the cached pair with `true`.
The value component is the stored slice, which may be the nil slice. -/
def Iterator.current (w : Iterator) : Option Bytes × GoSlice × Bool :=
  match w.currErr, w.currK, w.currV with
  | GoErr.done, _, _ => (none, none, false)
  | _, none, _ => (none, none, false)
  | _, _, none => (none, none, false)
  | _, some k, some v => (some k, v, true)

/-- `Iterator.Key()`: the current key, or the nil slice when there is no entry. -/
def Iterator.key (w : Iterator) : Option Bytes :=
  w.current.1

/-- `Iterator.Value()`: the current value, or the nil slice when there is no entry. -/
def Iterator.value (w : Iterator) : GoSlice :=
  w.current.2.1

/-- `Iterator.Valid()`: whether `Current` reports an entry. -/
def Iterator.valid (w : Iterator) : Bool :=
  w.current.2.2

/-- `Store.Iterator(k)`: a fresh iterator seeked to `k`. -/
def storeIterator (t : Tree) (k : Bytes) : Iterator :=
  Iterator.seek t k

/-- `Store.Get(k)`: `(nil, nil)` when the key is absent or holds the nil
slice; otherwise the stored slice with a nil error.  The error is always nil. -/
def storeGet (t : Tree) (k : Bytes) : GoSlice × GoErr :=
  match treeGet t k with
  | some (some v) => (some v, GoErr.noErr)
  | _ => (none, GoErr.noErr)

/-- `Store.Set(k, v)`: locked insert-or-replace; always returns a nil error. -/
def storeSet (t : Tree) (k : Bytes) (v : GoSlice) : Tree × GoErr :=
  (treeSet t k v, GoErr.noErr)

/-- `Store.Delete(k)`: locked removal; always returns a nil error. -/
def storeDelete (t : Tree) (k : Bytes) : Tree × GoErr :=
  (treeDelete t k, GoErr.noErr)

/-- `StoreConstructor`: a store over an empty tree. -/
def storeConstructor : Tree := []

/-- Merge-operator errors, compared verbatim. -/
abbrev MergeErr : Type := String

/-- `store.AssociativeMerge`: `Merge(key, existing) ([]byte, error)` as a function. -/
abbrev AssocMerge : Type := Bytes → GoSlice → Except MergeErr GoSlice

/-- Modelled from the spec: `store.AssociativeMergeChain.Merge` is declared in
the bleve `index/store` package, which is not among the provided sources.  Per
the spec it folds the chain's operators over `(key, currentValue)` in
registration order, producing a value-or-tombstone, and an operator failure
aborts the fold with that operator's error. -/
def chainMerge : List AssocMerge → Bytes → GoSlice → Except MergeErr GoSlice
  | [], _, v => Except.ok v
  | op :: rest, k, v =>
    match op k v with
    | Except.error e => Except.error e
    | Except.ok v1 => chainMerge rest k v1

/-- The `Batch` struct: pending keys `ks`, pending values `vs` (`none` is the
tombstone appended by `Delete`), and the merge map `ms`.  `ms` is an
association list in insertion order (a determinization of Go's map iteration
order); `ms = none` is the nil map left behind by `Close`. -/
structure Batch : Type where
  ks : List Bytes
  vs : List GoSlice
  ms : Option (List (Bytes × List AssocMerge))

/-- `Store.NewBatch()`: empty buffers and a fresh (non-nil) merge map. -/
def newBatch : Batch :=
  { ks := [], vs := [], ms := some [] }

/-- `Batch.Set(k, v)`: append the pair to the pending buffers. -/
def Batch.set (w : Batch) (k : Bytes) (v : GoSlice) : Batch :=
  { w with ks := w.ks ++ [k], vs := w.vs ++ [v] }

/-- `Batch.Delete(k)`: append the key with the nil-slice tombstone. -/
def Batch.delete (w : Batch) (k : Bytes) : Batch :=
  { w with ks := w.ks ++ [k], vs := w.vs ++ [none] }

/-- `ms[key] = append(ms[key], oper)`: extend the key's chain, or append a new
singleton chain at the end (Go's `string(k)` key is the byte string itself). -/
def msInsert : List (Bytes × List AssocMerge) → Bytes → AssocMerge →
    List (Bytes × List AssocMerge)
  | [], k, op => [(k, [op])]
  | (k0, c) :: rest, k, op =>
    if k = k0 then (k0, c ++ [op]) :: rest else (k0, c) :: msInsert rest k op

/-- `Batch.Merge(k, oper)`: assigning into a nil map panics, modelled as `none`. -/
def Batch.mergeOp (w : Batch) (k : Bytes) (op : AssocMerge) : Option Batch :=
  match w.ms with
  | none => none
  | some m => some { w with ms := some (msInsert m k op) }

/-- `Batch.Close()`: `ks`/`vs` become nil slices and `ms` becomes the nil map. -/
def Batch.close (_w : Batch) : Batch :=
  { ks := [], vs := [], ms := none }

/-- The read the merge loop performs: `b := nil; if ok && v != nil { b = v }`. -/
def currentOf (t : Tree) (k : Bytes) : GoSlice :=
  match treeGet t k with
  | some (some v) => some v
  | _ => none

/-- The merge loop of `Batch.Execute`: for each key with a chain, fold the
chain over the key's current value; a non-nil result is `Set`, a nil result is
`Delete`; an operator error stops the loop, keeping the tree mutated so far. -/
def applyMerges (t : Tree) : List (Bytes × List AssocMerge) → Tree × Option MergeErr
  | [] => (t, none)
  | (k, mc) :: rest =>
    match chainMerge mc k (currentOf t k) with
    | Except.error e => (t, some e)
    | Except.ok (some b1) => applyMerges (treeSet t k (some b1)) rest
    | Except.ok none => applyMerges (treeDelete t k) rest

/-- The plain-write loop of `Batch.Execute`: `for i, k := range ks { v := vs[i] ... }`;
a non-nil `v` is `Set`, a nil `v` is `Delete`.  Indexing `vs[i]` out of bounds
panics, modelled as `none`; extra `vs` entries beyond `ks` are ignored. -/
def applyWrites : Tree → List Bytes → List GoSlice → Option Tree
  | t, [], _ => some t
  | _, _ :: _, [] => none
  | t, k :: ks, v :: vs =>
    match v with
    | some _ => applyWrites (treeSet t k v) ks vs
    | none => applyWrites (treeDelete t k) ks vs

/-- `Batch.Execute()`: drain the buffers (leaving empty slices and a fresh
merge map), run all merge chains (`ms = nil` ranges as empty), and then — only
when no merge failed — replay the plain pending writes in append order.
The result is the drained batch, the new tree, and the returned error;
`none` overall is the `vs[i]` out-of-bounds panic. -/
def Batch.execute (w : Batch) (t : Tree) : Option (Batch × Tree × Option MergeErr) :=
  match applyMerges t (w.ms.getD []) with
  | (t1, some e) => some ({ ks := [], vs := [], ms := some [] }, t1, some e)
  | (t1, none) =>
    match applyWrites t1 w.ks w.vs with
    | some t2 => some ({ ks := [], vs := [], ms := some [] }, t2, none)
    | none => none

/-- Spec-side reference: the last Set/Delete pending entry for a key in the
batch buffers, scanning `ks`/`vs` as appended. -/
def specLastPending : List Bytes → List GoSlice → Bytes → Option GoSlice
  | [], _, _ => none
  | _ :: _, [], _ => none
  | k0 :: ks, v0 :: vs, k =>
    match specLastPending ks vs k with
    | some r => some r
    | none => if k0 = k then some v0 else none

/-- A point operation on the store, for sequences of `Store.Set`/`Store.Delete`. -/
inductive StoreOp : Type
  | setOp : Bytes → GoSlice → StoreOp
  | delOp : Bytes → StoreOp

/-- The key a point operation touches. -/
def StoreOp.opKey : StoreOp → Bytes
  | StoreOp.setOp k _ => k
  | StoreOp.delOp k => k

/-- Run one point operation through the store API. -/
def applyOp (t : Tree) : StoreOp → Tree
  | StoreOp.setOp k v => (storeSet t k v).1
  | StoreOp.delOp k => (storeDelete t k).1

/-- Run a sequence of point operations in order. -/
def applyOps (t : Tree) (ops : List StoreOp) : Tree :=
  ops.foldl applyOp t

/-- Spec-side reference: the last operation of the sequence touching `k`. -/
def specLastWrite : List StoreOp → Bytes → Option StoreOp
  | [], _ => none
  | op :: rest, k =>
    match specLastWrite rest k with
    | some o => some o
    | none => if op.opKey = k then some op else none

/-- Iterate `Iterator.next` a number of times. -/
def iterNexts : Nat → Iterator → Iterator
  | 0, w => w
  | n + 1, w => iterNexts n w.next

/-- A merge operator that replaces any current value with the constant `u`. -/
def opConst (u : Bytes) : AssocMerge :=
  fun _ _ => Except.ok (some u)

/-- A merge operator appending `u` to the current value (absent reads as empty). -/
def opAppend (u : Bytes) : AssocMerge :=
  fun _ v => Except.ok (some (v.getD [] ++ u))

/-- A merge operator that always fails with error `e`. -/
def opFail (e : MergeErr) : AssocMerge :=
  fun _ _ => Except.error e

/-- The batch of the spec's Set/Merge/Set scenario: `Set(A,"1")`,
`Merge(A, op appending "x")`, `Set(A,"2")` with `A = "A" = [65]`,
`"1" = [49]`, `"2" = [50]`, `"x" = [120]`, built through the batch API. -/
def c1ScenarioBatch : Option Batch :=
  (Batch.mergeOp (Batch.set newBatch [65] (some [49])) [65] (opAppend [120])).map
    (fun bb => Batch.set bb [65] (some [50]))

/-! ### Order lemmas for `bytesCompare` -/

theorem bytesCompare_eq_iff (a b : Bytes) : bytesCompare a b = Ordering.eq ↔ a = b := by
  induction a generalizing b with
  | nil => cases b <;> simp [bytesCompare]
  | cons x xs ih =>
    cases b with
    | nil => simp [bytesCompare]
    | cons y ys =>
      simp only [bytesCompare]
      rcases Nat.lt_trichotomy x y with h | h | h
      · have hne : x ≠ y := Nat.ne_of_lt h
        simp [h, hne]
      · have h1 : ¬ x < y := by omega
        have h2 : ¬ y < x := by omega
        simp [h1, h2, h, ih]
      · have h1 : ¬ x < y := by omega
        have hne : x ≠ y := by omega
        simp [h1, h, hne]

theorem bytesCompare_self (a : Bytes) : bytesCompare a a = Ordering.eq :=
  (bytesCompare_eq_iff a a).mpr rfl

theorem bytesCompare_swap (a b : Bytes) : bytesCompare b a = (bytesCompare a b).swap := by
  induction a generalizing b with
  | nil => cases b <;> simp [bytesCompare, Ordering.swap]
  | cons x xs ih =>
    cases b with
    | nil => simp [bytesCompare, Ordering.swap]
    | cons y ys =>
      simp only [bytesCompare]
      rcases Nat.lt_trichotomy x y with h | h | h
      · have h2 : ¬ y < x := by omega
        simp [h, h2, Ordering.swap]
      · have h1 : ¬ x < y := by omega
        have h2 : ¬ y < x := by omega
        simp [h1, h2, ih]
      · have h1 : ¬ x < y := by omega
        simp [h1, h, Ordering.swap]

theorem bytesCompare_gt_iff_lt (a b : Bytes) :
    bytesCompare a b = Ordering.gt ↔ bytesCompare b a = Ordering.lt := by
  rw [bytesCompare_swap b a]
  generalize bytesCompare b a = o
  cases o <;> simp [Ordering.swap]

theorem bytesCompare_lt_trans {a b c : Bytes} (hab : bytesCompare a b = Ordering.lt)
    (hbc : bytesCompare b c = Ordering.lt) : bytesCompare a c = Ordering.lt := by
  induction a generalizing b c with
  | nil =>
    cases c with
    | nil =>
      cases b with
      | nil => simp [bytesCompare] at hab
      | cons y ys => simp [bytesCompare] at hbc
    | cons z zs => simp [bytesCompare]
  | cons x xs ih =>
    cases b with
    | nil => simp [bytesCompare] at hab
    | cons y ys =>
      cases c with
      | nil => simp [bytesCompare] at hbc
      | cons z zs =>
        simp only [bytesCompare] at hab hbc ⊢
        split_ifs at hab hbc ⊢ <;>
          first
          | rfl
          | (exact ih hab hbc)
          | (exfalso; omega)


/-! ### Point lookup against set/delete -/

theorem treeGet_treeSet (t : Tree) (k q : Bytes) (v : GoSlice) :
    treeGet (treeSet t k v) q = if q = k then some v else treeGet t q := by
  induction t with
  | nil =>
    by_cases hq : q = k <;> simp [treeSet, treeGet, bytesCompare_eq_iff, hq]
  | cons p rest ih =>
    obtain ⟨k0, v0⟩ := p
    cases hc : bytesCompare k k0 with
    | lt =>
      simp [treeSet, hc, treeGet, bytesCompare_eq_iff]
    | eq =>
      have hk : k = k0 := (bytesCompare_eq_iff k k0).mp hc
      subst hk
      by_cases hq : q = k <;> simp [treeSet, hc, treeGet, bytesCompare_eq_iff, hq]
    | gt =>
      have hkk0 : k ≠ k0 := by
        intro h
        rw [h, bytesCompare_self] at hc
        cases hc
      have hk0k : ¬ (k0 = k) := fun h => hkk0 h.symm
      by_cases hq : q = k
      · subst hq
        have hne : bytesCompare q k0 ≠ Ordering.eq := by
          simp [bytesCompare_eq_iff, hkk0]
        simp [treeSet, hc, treeGet, hne, ih]
      · by_cases hq0 : q = k0
        · subst hq0
          simp [treeSet, hc, treeGet, bytesCompare_self, hq]
        · have hne : bytesCompare q k0 ≠ Ordering.eq := by
            simp [bytesCompare_eq_iff, hq0]
          simp [treeSet, hc, treeGet, hne, hq, ih]

theorem treeGet_eq_none_of_lt (t : Tree) (k : Bytes)
    (h : ∀ p ∈ t, bytesCompare k p.1 = Ordering.lt) : treeGet t k = none := by
  induction t with
  | nil => rfl
  | cons p rest ih =>
    obtain ⟨k0, v0⟩ := p
    have h0 := h (k0, v0) (List.mem_cons_self _ _)
    have hne : bytesCompare k k0 ≠ Ordering.eq := by simp [h0]
    simp only [treeGet, if_neg hne]
    exact ih (fun p hp => h p (List.mem_cons_of_mem _ hp))

theorem treeGet_treeDelete (t : Tree) (k q : Bytes) (hs : TreeSorted t) :
    treeGet (treeDelete t k) q = if q = k then none else treeGet t q := by
  induction t with
  | nil => by_cases hq : q = k <;> simp [treeDelete, treeGet, hq]
  | cons p rest ih =>
    obtain ⟨k0, v0⟩ := p
    rw [TreeSorted, List.pairwise_cons] at hs
    obtain ⟨h0, h1⟩ := hs
    cases hc : bytesCompare k k0 with
    | lt =>
      by_cases hq : q = k
      · subst hq
        have hnone : treeGet ((k0, v0) :: rest) q = none := by
          apply treeGet_eq_none_of_lt
          intro p hp
          rcases List.mem_cons.mp hp with h | h
          · rw [h]; exact hc
          · exact bytesCompare_lt_trans hc (h0 p h)
        simp [treeDelete, hc, hnone]
      · simp [treeDelete, hc, hq]
    | eq =>
      have hk : k = k0 := (bytesCompare_eq_iff k k0).mp hc
      subst hk
      by_cases hq : q = k
      · subst hq
        have hnone : treeGet rest q = none :=
          treeGet_eq_none_of_lt _ _ (fun p hp => h0 p hp)
        simp [treeDelete, hc, hnone]
      · have hne : bytesCompare q k ≠ Ordering.eq := by
          simp [bytesCompare_eq_iff, hq]
        simp [treeDelete, hc, treeGet, hne, hq]
    | gt =>
      have hkk0 : k ≠ k0 := by
        intro h
        rw [h, bytesCompare_self] at hc
        cases hc
      by_cases hq : q = k0
      · subst hq
        have hne : q ≠ k := fun h => hkk0 h.symm
        simp [treeDelete, hc, treeGet, bytesCompare_self, hne]
      · have hne : bytesCompare q k0 ≠ Ordering.eq := by
          simp [bytesCompare_eq_iff, hq]
        simp [treeDelete, hc, treeGet, hne, ih h1]

theorem treeGet_ne_none_of_mem (t : Tree) (p : Bytes × GoSlice) (hp : p ∈ t) :
    treeGet t p.1 ≠ none := by
  induction t with
  | nil => simp at hp
  | cons q rest ih =>
    obtain ⟨k0, v0⟩ := q
    rcases List.mem_cons.mp hp with h | h
    · rw [h]
      simp [treeGet, bytesCompare_self]
    · by_cases hc : bytesCompare p.1 k0 = Ordering.eq
      · simp [treeGet, hc]
      · simp only [treeGet, if_neg hc]
        exact ih h

theorem treeDelete_eq_self (t : Tree) (k : Bytes) (h : treeGet t k = none) :
    treeDelete t k = t := by
  induction t with
  | nil => rfl
  | cons p rest ih =>
    obtain ⟨k0, v0⟩ := p
    cases hc : bytesCompare k k0 with
    | lt => simp [treeDelete, hc]
    | eq => simp [treeGet, hc] at h
    | gt =>
      have hrest : treeGet rest k = none := by
        have hne : bytesCompare k k0 ≠ Ordering.eq := by simp [hc]
        simpa [treeGet, if_neg hne] using h
      simp [treeDelete, hc, ih hrest]


/-! ### Preservation of the sorted-tree invariant -/

theorem treeSorted_nil : TreeSorted [] := List.Pairwise.nil

theorem mem_treeSet_key (t : Tree) (k : Bytes) (v : GoSlice) :
    ∀ p ∈ treeSet t k v, p.1 = k ∨ p ∈ t := by
  induction t with
  | nil =>
    intro p hp
    simp [treeSet] at hp
    left
    rw [hp]
  | cons q rest ih =>
    obtain ⟨k0, v0⟩ := q
    intro p hp
    cases hc : bytesCompare k k0 with
    | lt =>
      simp only [treeSet, hc] at hp
      rcases List.mem_cons.mp hp with h | h
      · left; rw [h]
      · right; exact h
    | eq =>
      have hk : k = k0 := (bytesCompare_eq_iff k k0).mp hc
      simp only [treeSet, hc] at hp
      rcases List.mem_cons.mp hp with h | h
      · left; rw [h, hk]
      · right; exact List.mem_cons_of_mem _ h
    | gt =>
      simp only [treeSet, hc] at hp
      rcases List.mem_cons.mp hp with h | h
      · right; rw [h]; exact List.mem_cons_self _ _
      · rcases ih p h with h2 | h2
        · left; exact h2
        · right; exact List.mem_cons_of_mem _ h2

theorem treeSorted_treeSet (t : Tree) (k : Bytes) (v : GoSlice) (hs : TreeSorted t) :
    TreeSorted (treeSet t k v) := by
  induction t with
  | nil => simp [treeSet, TreeSorted]
  | cons p rest ih =>
    obtain ⟨k0, v0⟩ := p
    rw [TreeSorted, List.pairwise_cons] at hs
    obtain ⟨h0, h1⟩ := hs
    cases hc : bytesCompare k k0 with
    | lt =>
      simp only [treeSet, hc]
      rw [TreeSorted, List.pairwise_cons]
      refine ⟨?_, ?_⟩
      · intro p hp
        rcases List.mem_cons.mp hp with h | h
        · rw [h]; exact hc
        · exact bytesCompare_lt_trans hc (h0 p h)
      · rw [List.pairwise_cons]
        exact ⟨h0, h1⟩
    | eq =>
      simp only [treeSet, hc]
      rw [TreeSorted, List.pairwise_cons]
      exact ⟨h0, h1⟩
    | gt =>
      simp only [treeSet, hc]
      rw [TreeSorted, List.pairwise_cons]
      refine ⟨?_, ih h1⟩
      intro p hp
      rcases mem_treeSet_key rest k v p hp with h | h
      · rw [h]
        exact (bytesCompare_gt_iff_lt k k0).mp hc
      · exact h0 p h

theorem treeDelete_sublist (t : Tree) (k : Bytes) : (treeDelete t k).Sublist t := by
  induction t with
  | nil => simp [treeDelete]
  | cons p rest ih =>
    obtain ⟨k0, v0⟩ := p
    cases hc : bytesCompare k k0 with
    | lt => simp [treeDelete, hc]
    | eq =>
      simp only [treeDelete, hc]
      exact List.sublist_cons_self _ _
    | gt =>
      simp only [treeDelete, hc]
      exact ih.cons₂ _

theorem treeSorted_treeDelete (t : Tree) (k : Bytes) (hs : TreeSorted t) :
    TreeSorted (treeDelete t k) :=
  hs.sublist (treeDelete_sublist t k)

/-! ### Seek lemmas -/

theorem treeSeek_sublist (t : Tree) (k : Bytes) : (treeSeek t k).Sublist t := by
  induction t with
  | nil => simp [treeSeek]
  | cons p rest ih =>
    obtain ⟨k0, v0⟩ := p
    by_cases hc : bytesCompare k0 k = Ordering.lt
    · simp only [treeSeek, if_pos hc]
      exact ih.trans (List.sublist_cons_self _ _)
    · simp only [treeSeek, if_neg hc]
      exact List.Sublist.refl _

theorem treeSeek_treeSet_self (t : Tree) (k : Bytes) (v : GoSlice) (hs : TreeSorted t) :
    ∃ rest, treeSeek (treeSet t k v) k = (k, v) :: rest := by
  induction t with
  | nil =>
    refine ⟨[], ?_⟩
    simp [treeSet, treeSeek, bytesCompare_self]
  | cons p rest ih =>
    obtain ⟨k0, v0⟩ := p
    rw [TreeSorted, List.pairwise_cons] at hs
    obtain ⟨h0, h1⟩ := hs
    cases hc : bytesCompare k k0 with
    | lt =>
      refine ⟨(k0, v0) :: rest, ?_⟩
      simp [treeSet, hc, treeSeek, bytesCompare_self]
    | eq =>
      have hk : k = k0 := (bytesCompare_eq_iff k k0).mp hc
      subst hk
      refine ⟨rest, ?_⟩
      simp [treeSet, bytesCompare_self, treeSeek]
    | gt =>
      obtain ⟨r2, hr2⟩ := ih h1
      refine ⟨r2, ?_⟩
      have hlt : bytesCompare k0 k = Ordering.lt := (bytesCompare_gt_iff_lt k k0).mp hc
      simp [treeSet, hc, treeSeek, hlt, hr2]

theorem storeIterator_key_ne (t : Tree) (q : Bytes) (h : treeGet t q = none) :
    (storeIterator t q).key ≠ some q := by
  cases he : treeSeek t q with
  | nil =>
    simp [storeIterator, Iterator.seek, Iterator.next, he, enumNext, Iterator.key,
      Iterator.current]
  | cons p r =>
    obtain ⟨k0, v0⟩ := p
    have hpmem : ((k0, v0) : Bytes × GoSlice) ∈ t :=
      (treeSeek_sublist t q).subset (by rw [he]; exact List.mem_cons_self _ _)
    intro hk
    have hk0 : k0 = q := by
      simp [storeIterator, Iterator.seek, Iterator.next, he, enumNext, Iterator.key,
        Iterator.current] at hk
      exact hk
    subst hk0
    exact treeGet_ne_none_of_mem t (k0, v0) hpmem h


/-! ### The plain-write replay loop -/

theorem applyWrites_isSome (ks : List Bytes) (vs : List GoSlice) (t : Tree)
    (h : ks.length ≤ vs.length) : (applyWrites t ks vs).isSome := by
  induction ks generalizing t vs with
  | nil => simp [applyWrites]
  | cons k ks ih =>
    cases vs with
    | nil => simp at h
    | cons v vs =>
      cases v with
      | some u =>
        simp only [applyWrites]
        exact ih vs (treeSet t k (some u)) (Nat.le_of_succ_le_succ h)
      | none =>
        simp only [applyWrites]
        exact ih vs (treeDelete t k) (Nat.le_of_succ_le_succ h)

theorem treeSorted_applyWrites (ks : List Bytes) (vs : List GoSlice) (t t2 : Tree)
    (hs : TreeSorted t) (h : applyWrites t ks vs = some t2) : TreeSorted t2 := by
  induction ks generalizing t vs with
  | nil =>
    simp [applyWrites] at h
    rw [← h]
    exact hs
  | cons k ks ih =>
    cases vs with
    | nil => simp [applyWrites] at h
    | cons v vs =>
      cases v with
      | some u =>
        simp only [applyWrites] at h
        exact ih vs _ (treeSorted_treeSet _ _ _ hs) h
      | none =>
        simp only [applyWrites] at h
        exact ih vs _ (treeSorted_treeDelete _ _ hs) h

theorem treeGet_applyWrites (ks : List Bytes) (vs : List GoSlice) (t t2 : Tree)
    (hs : TreeSorted t) (h : applyWrites t ks vs = some t2) (q : Bytes) :
    treeGet t2 q =
      match specLastPending ks vs q with
      | some (some u) => some (some u)
      | some none => none
      | none => treeGet t q := by
  induction ks generalizing t vs with
  | nil =>
    simp [applyWrites] at h
    rw [← h]
    simp [specLastPending]
  | cons k ks ih =>
    cases vs with
    | nil => simp [applyWrites] at h
    | cons v vs =>
      cases v with
      | some u =>
        simp only [applyWrites] at h
        have hstep := ih vs _ (treeSorted_treeSet t k (some u) hs) h
        rw [hstep]
        simp only [specLastPending]
        cases hl : specLastPending ks vs q with
        | some r => cases r <;> rfl
        | none =>
          rw [treeGet_treeSet]
          by_cases hq : k = q
          · subst hq
            simp
          · have hq2 : ¬ (q = k) := fun hh => hq hh.symm
            simp [hq, hq2]
      | none =>
        simp only [applyWrites] at h
        have hstep := ih vs _ (treeSorted_treeDelete t k hs) h
        rw [hstep]
        simp only [specLastPending]
        cases hl : specLastPending ks vs q with
        | some r => cases r <;> rfl
        | none =>
          rw [treeGet_treeDelete t k q hs]
          by_cases hq : k = q
          · subst hq
            simp
          · have hq2 : ¬ (q = k) := fun hh => hq hh.symm
            simp [hq, hq2]

/-! ### The merge loop -/

theorem treeSorted_applyMerges (ms : List (Bytes × List AssocMerge)) (t : Tree)
    (hs : TreeSorted t) : TreeSorted (applyMerges t ms).1 := by
  induction ms generalizing t with
  | nil => exact hs
  | cons p rest ih =>
    obtain ⟨k, mc⟩ := p
    simp only [applyMerges]
    cases hcm : chainMerge mc k (currentOf t k) with
    | error e => exact hs
    | ok b1 =>
      cases b1 with
      | some u => exact ih _ (treeSorted_treeSet _ _ _ hs)
      | none => exact ih _ (treeSorted_treeDelete _ _ hs)

theorem applyMerges_append (l1 l2 : List (Bytes × List AssocMerge)) (t : Tree) :
    applyMerges t (l1 ++ l2) =
      match applyMerges t l1 with
      | (t1, some e) => (t1, some e)
      | (t1, none) => applyMerges t1 l2 := by
  induction l1 generalizing t with
  | nil => simp [applyMerges]
  | cons p rest ih =>
    obtain ⟨k, mc⟩ := p
    simp only [List.cons_append, applyMerges]
    cases hcm : chainMerge mc k (currentOf t k) with
    | error e => simp
    | ok b1 =>
      cases b1 with
      | some u => simp [ih]
      | none => simp [ih]

/-! ### Point-operation sequences -/

theorem treeSorted_applyOps (ops : List StoreOp) (t : Tree) (hs : TreeSorted t) :
    TreeSorted (applyOps t ops) := by
  induction ops generalizing t with
  | nil => exact hs
  | cons op rest ih =>
    cases op with
    | setOp k v => exact ih _ (treeSorted_treeSet _ _ _ hs)
    | delOp k => exact ih _ (treeSorted_treeDelete _ _ hs)

theorem treeGet_applyOps (ops : List StoreOp) (t : Tree) (hs : TreeSorted t) (q : Bytes) :
    treeGet (applyOps t ops) q =
      match specLastWrite ops q with
      | some (StoreOp.setOp _ v) => some v
      | some (StoreOp.delOp _) => none
      | none => treeGet t q := by
  induction ops generalizing t with
  | nil => simp [applyOps, specLastWrite]
  | cons op rest ih =>
    have hstep : applyOps t (op :: rest) = applyOps (applyOp t op) rest := rfl
    rw [hstep]
    cases op with
    | setOp k v =>
      have h2 := ih (applyOp t (StoreOp.setOp k v)) (treeSorted_treeSet _ _ _ hs)
      rw [h2]
      simp only [specLastWrite]
      cases hl : specLastWrite rest q with
      | some o => cases o <;> rfl
      | none =>
        simp only [applyOp, storeSet, StoreOp.opKey]
        rw [treeGet_treeSet]
        by_cases hq : k = q
        · subst hq
          simp
        · have hq2 : ¬ (q = k) := fun hh => hq hh.symm
          simp [hq, hq2]
    | delOp k =>
      have h2 := ih (applyOp t (StoreOp.delOp k)) (treeSorted_treeDelete _ _ hs)
      rw [h2]
      simp only [specLastWrite]
      cases hl : specLastWrite rest q with
      | some o => cases o <;> rfl
      | none =>
        simp only [applyOp, storeDelete, StoreOp.opKey]
        rw [treeGet_treeDelete t k q hs]
        by_cases hq : k = q
        · subst hq
          simp
        · have hq2 : ¬ (q = k) := fun hh => hq hh.symm
          simp [hq, hq2]


/-! ### Batch execute drains its buffers -/

theorem batchExecute_drains (w : Batch) (t : Tree) (r : Batch × Tree × Option MergeErr)
    (h : Batch.execute w t = some r) : r.1 = newBatch := by
  simp only [Batch.execute] at h
  split at h
  · rw [← Option.some.inj h]
    rfl
  · split at h
    · rw [← Option.some.inj h]
      rfl
    · exact Option.noConfusion h

/-! ### Claim theorems -/

/-- C4: for every sequence of `Store.Set`/`Store.Delete` operations starting
from the constructed (empty) store, `Get(k)` returns exactly the value of the
last `Set(k, v)` not followed by a `Delete(k)`, absence when the last operation
on `k` was a `Delete`, and absence for a key never written — always with a nil
error. -/
theorem c4_get_returns_last_write (ops : List StoreOp) (k : Bytes) :
    storeGet (applyOps storeConstructor ops) k =
      ((match specLastWrite ops k with
        | some (StoreOp.setOp _ v) => v
        | _ => none), GoErr.noErr) := by
  have h := treeGet_applyOps ops storeConstructor treeSorted_nil k
  simp only [storeGet, h]
  cases hl : specLastWrite ops k with
  | none => rfl
  | some o =>
    cases o with
    | setOp k0 v => cases v <;> rfl
    | delOp k0 => rfl

/-- C6: once the iterator is in a terminal errored/exhausted state
(`currErr` non-nil, hence `Valid() == false` after the done sentinel), every
further `Next` keeps `Current`/`Key`/`Value`/`Valid` reporting no current
entry, with the done sentinel pinned — no stale pair ever reappears. -/
theorem c6_terminal_is_sticky (w : Iterator) (h : w.currErr ≠ GoErr.noErr) (n : Nat) :
    (iterNexts (n + 1) w).current = (none, none, false) ∧
    (iterNexts (n + 1) w).key = none ∧
    (iterNexts (n + 1) w).value = none ∧
    (iterNexts (n + 1) w).valid = false ∧
    (iterNexts (n + 1) w).currErr = GoErr.done := by
  induction n generalizing w with
  | zero =>
    simp [iterNexts, Iterator.next, h, Iterator.current, Iterator.key, Iterator.value,
      Iterator.valid]
  | succ m ih =>
    have hstep : iterNexts (m + 1 + 1) w = iterNexts (m + 1) w.next := rfl
    rw [hstep]
    apply ih
    simp [Iterator.next, h]

/-- C6 witness: a concrete iterator that hit `io.EOF` while still caching a
stale pair stays entry-less over repeated `Next` calls. -/
theorem c6_witness :
    (iterNexts 3 { e := [], currK := some [0], currV := some (some [1]), currErr := GoErr.eof }).current = (none, none, false) ∧
    (iterNexts 3 { e := [], currK := some [0], currV := some (some [1]), currErr := GoErr.eof }).key = none ∧
    (iterNexts 3 { e := [], currK := some [0], currV := some (some [1]), currErr := GoErr.eof }).value = none ∧
    (iterNexts 3 { e := [], currK := some [0], currV := some (some [1]), currErr := GoErr.eof }).valid = false ∧
    (iterNexts 3 { e := [], currK := some [0], currV := some (some [1]), currErr := GoErr.eof }).currErr = GoErr.done :=
  c6_terminal_is_sticky
    { e := [], currK := some [0], currV := some (some [1]), currErr := GoErr.eof }
    (by decide) 2

/-- C7: `Store.Get` on a missing key or an explicit tombstone returns absence
with a nil error (the error is nil for every lookup), and `Store.Delete` of a
non-existent key leaves the map unchanged and returns a nil error. -/
theorem c7_absence_is_not_error (t : Tree) (k : Bytes) :
    (storeGet t k).2 = GoErr.noErr ∧
    ((treeGet t k = none ∨ treeGet t k = some none) → storeGet t k = (none, GoErr.noErr)) ∧
    (treeGet t k = none → storeDelete t k = (t, GoErr.noErr)) := by
  refine ⟨?_, ?_, ?_⟩
  · simp only [storeGet]
    cases treeGet t k with
    | none => rfl
    | some v => cases v <;> rfl
  · intro h
    rcases h with h | h <;> simp [storeGet, h]
  · intro h
    simp [storeDelete, treeDelete_eq_self t k h]

/-- C7 witness: getting and deleting the absent key `[1]` on a one-entry store. -/
theorem c7_witness :
    storeGet [([0], some [7])] [1] = (none, GoErr.noErr) ∧
    storeDelete [([0], some [7])] [1] = ([([0], some [7])], GoErr.noErr) :=
  ⟨(c7_absence_is_not_error [([0], some [7])] [1]).2.1 (Or.inl (by decide)),
   (c7_absence_is_not_error [([0], some [7])] [1]).2.2 (by decide)⟩

/-- C10: after `Batch.Close`, `Set`/`Delete` still buffer (append to nil
slices works), `Execute` still succeeds as a no-op commit (ranging over the
nil map yields nothing, and the buffers are re-initialized), but `Merge`
faults: the merge map is nil and the assignment into it panics. -/
theorem c10_close_then_batch_ops (w : Batch) (k : Bytes) (v : GoSlice)
    (op : AssocMerge) (t : Tree) :
    (w.close.set k v).ks = [k] ∧ (w.close.set k v).vs = [v] ∧
    (w.close.delete k).ks = [k] ∧ (w.close.delete k).vs = [none] ∧
    Batch.execute w.close t = some (newBatch, t, none) ∧
    Batch.mergeOp w.close k op = none :=
  ⟨rfl, rfl, rfl, rfl, rfl, rfl⟩

/-- C9: every batch operation preserves equality of the pending-keys and
pending-values buffer lengths, and under that invariant the paired `vs[i]`
access in `Execute` never goes out of bounds (`Execute` never hits the panic
case). -/
theorem c9_batch_buffer_lengths (w : Batch) (h : w.ks.length = w.vs.length)
    (k : Bytes) (v : GoSlice) (op : AssocMerge) (t : Tree) :
    newBatch.ks.length = newBatch.vs.length ∧
    (w.set k v).ks.length = (w.set k v).vs.length ∧
    (w.delete k).ks.length = (w.delete k).vs.length ∧
    (∀ w2, Batch.mergeOp w k op = some w2 → w2.ks.length = w2.vs.length) ∧
    (∀ r, Batch.execute w t = some r → r.1.ks.length = r.1.vs.length) ∧
    w.close.ks.length = w.close.vs.length ∧
    Batch.execute w t ≠ none := by
  refine ⟨rfl, ?_, ?_, ?_, ?_, rfl, ?_⟩
  · simp [Batch.set, h]
  · simp [Batch.delete, h]
  · intro w2 hw2
    cases hms : w.ms with
    | none => simp [Batch.mergeOp, hms] at hw2
    | some m =>
      simp only [Batch.mergeOp, hms] at hw2
      rw [← Option.some.inj hw2]
      exact h
  · intro r hr
    rw [batchExecute_drains w t r hr]
    rfl
  · rcases hm : applyMerges t (w.ms.getD []) with ⟨t1, e⟩
    cases e with
    | some err => simp [Batch.execute, hm]
    | none =>
      cases hw : applyWrites t1 w.ks w.vs with
      | some t2 => simp [Batch.execute, hm, hw]
      | none =>
        have hsome := applyWrites_isSome w.ks w.vs t1 (Nat.le_of_eq h)
        rw [hw] at hsome
        simp at hsome

/-- C9 witness: a batch with one buffered Set satisfies the invariant and
its `Execute` does not panic. -/
theorem c9_witness :
    Batch.execute (Batch.set newBatch [0] (some [1])) storeConstructor ≠ none :=
  (c9_batch_buffer_lengths (Batch.set newBatch [0] (some [1])) (by decide)
    [0] (some [1]) (opConst [1]) storeConstructor).2.2.2.2.2.2


/-- C3 counterexample: on the empty store, `Set([0], nil)` and `Delete([0])`
are distinguished by a subsequent iterator: the tombstoned key is still
visited (`Valid() == true`, because the interface holding a typed-nil `[]byte`
is not the nil interface), while after `Delete` the iterator is exhausted. -/
theorem c3_counterexample :
    (storeIterator (storeSet storeConstructor [0] none).1 []).valid = true ∧
    (storeIterator (storeDelete storeConstructor [0]).1 []).valid = false :=
  ⟨rfl, rfl⟩

/-- C3 (amended): `Store.Set(k, tombstone)` and `Store.Delete(k)` are
observationally equivalent for every subsequent `Get`, but not for iterator
traversal: the tombstoned key still appears as a current entry (`Key` reports
it, `Valid` is true, `Value` is the nil slice), whereas after `Delete` no
iterator positions on `k`. -/
theorem c3_tombstone_get_equiv_but_iterator_differs (t : Tree) (k : Bytes)
    (hs : TreeSorted t) :
    (∀ q, storeGet (storeSet t k none).1 q = storeGet (storeDelete t k).1 q) ∧
    (storeIterator (storeSet t k none).1 k).key = some k ∧
    (storeIterator (storeSet t k none).1 k).valid = true ∧
    (storeIterator (storeSet t k none).1 k).value = none ∧
    (storeIterator (storeDelete t k).1 k).key ≠ some k := by
  obtain ⟨rest, hr⟩ := treeSeek_treeSet_self t k none hs
  refine ⟨?_, ?_, ?_, ?_, ?_⟩
  · intro q
    simp only [storeSet, storeDelete, storeGet]
    rw [treeGet_treeSet, treeGet_treeDelete t k q hs]
    by_cases hq : q = k
    · simp [hq]
    · simp [hq]
  · simp [storeSet, storeIterator, Iterator.seek, Iterator.next, hr, enumNext,
      Iterator.key, Iterator.current]
  · simp [storeSet, storeIterator, Iterator.seek, Iterator.next, hr, enumNext,
      Iterator.valid, Iterator.current]
  · simp [storeSet, storeIterator, Iterator.seek, Iterator.next, hr, enumNext,
      Iterator.value, Iterator.current]
  · apply storeIterator_key_ne
    simp only [storeDelete]
    rw [treeGet_treeDelete t k k hs]
    simp

/-- C3 witness: the amended equivalence and difference at the empty store and
key `[0]`. -/
theorem c3_witness :
    storeGet (storeSet storeConstructor [0] none).1 [0] =
      storeGet (storeDelete storeConstructor [0]).1 [0] ∧
    (storeIterator (storeSet storeConstructor [0] none).1 [0]).key = some [0] :=
  ⟨(c3_tombstone_get_equiv_but_iterator_differs storeConstructor [0] treeSorted_nil).1 [0],
   (c3_tombstone_get_equiv_but_iterator_differs storeConstructor [0] treeSorted_nil).2.1⟩

/-- C5: on a store holding exactly `k1 < k2 < k3`, iteration from `SeekFirst`
visits `k1, k2, k3` in ascending byte order and then exhausts; `Seek(k2)`
positions exactly at `k2` when present, at the smallest greater key when `k2`
is absent, and exhausts when no key is `≥ k2`. -/
theorem c5_iteration_order (k1 k2 k3 : Bytes) (v1 v2 v3 : GoSlice)
    (h12 : bytesCompare k1 k2 = Ordering.lt) (h23 : bytesCompare k2 k3 = Ordering.lt) :
    (Iterator.seekFirst [(k1, v1), (k2, v2), (k3, v3)]).current = (some k1, v1, true) ∧
    (Iterator.seekFirst [(k1, v1), (k2, v2), (k3, v3)]).next.current = (some k2, v2, true) ∧
    (Iterator.seekFirst [(k1, v1), (k2, v2), (k3, v3)]).next.next.current = (some k3, v3, true) ∧
    (Iterator.seekFirst [(k1, v1), (k2, v2), (k3, v3)]).next.next.next.valid = false ∧
    (storeIterator [(k1, v1), (k2, v2), (k3, v3)] k2).current = (some k2, v2, true) ∧
    (storeIterator [(k1, v1), (k3, v3)] k2).current = (some k3, v3, true) ∧
    (storeIterator [(k1, v1)] k2).valid = false := by
  have h21 : ¬ bytesCompare k2 k2 = Ordering.lt := by
    simp [bytesCompare_self]
  have h32 : ¬ bytesCompare k3 k2 = Ordering.lt := by
    have hgt : bytesCompare k3 k2 = Ordering.gt := (bytesCompare_gt_iff_lt k3 k2).mpr h23
    simp [hgt]
  refine ⟨rfl, rfl, rfl, rfl, ?_, ?_, ?_⟩
  · simp [storeIterator, Iterator.seek, treeSeek, h12, h21, Iterator.next, enumNext,
      Iterator.current]
  · simp [storeIterator, Iterator.seek, treeSeek, h12, h32, Iterator.next, enumNext,
      Iterator.current]
  · simp [storeIterator, Iterator.seek, treeSeek, h12, Iterator.next, enumNext,
      Iterator.valid, Iterator.current]

/-- C5 witness: the three-key store `{[0] < [1] < [2]}`. -/
theorem c5_witness :
    bytesCompare [0] [1] = Ordering.lt ∧ bytesCompare [1] [2] = Ordering.lt ∧
    (storeIterator [([0], some [10]), ([1], some [11]), ([2], some [12])] [1]).current =
      (some [1], some [11], true) ∧
    (Iterator.seekFirst [([0], some [10]), ([1], some [11]), ([2], some [12])]).current =
      (some [0], some [10], true) :=
  ⟨by decide, by decide,
   (c5_iteration_order [0] [1] [2] (some [10]) (some [11]) (some [12])
      (by decide) (by decide)).2.2.2.2.1,
   (c5_iteration_order [0] [1] [2] (some [10]) (some [11]) (some [12])
      (by decide) (by decide)).1⟩


/-- C8: for a key with a registered merge chain, `Execute` reads the key's
current map value (absent when missing), folds the chain over it
(`chainMerge`, in registration order), and applies the result — insert/replace
for a value, delete for a tombstone; in particular a batch holding only
`Merge(B, op)` with `op(B, absent) = "y"` leaves `Get(B) == "y"`
(`B = [66]`, `"y" = [121]`). -/
theorem c8_merge_chain_semantics (t : Tree) (k : Bytes) (mc : List AssocMerge) :
    (∀ u, chainMerge mc k (currentOf t k) = Except.ok (some u) →
      Batch.execute { ks := [], vs := [], ms := some [(k, mc)] } t =
        some (newBatch, treeSet t k (some u), none)) ∧
    (chainMerge mc k (currentOf t k) = Except.ok none →
      Batch.execute { ks := [], vs := [], ms := some [(k, mc)] } t =
        some (newBatch, treeDelete t k, none)) ∧
    ((Batch.mergeOp newBatch [66] (opConst [121])).bind
        (fun bb => Batch.execute bb storeConstructor)).map
        (fun r => storeGet r.2.1 [66]) = some (some [121], GoErr.noErr) := by
  refine ⟨?_, ?_, rfl⟩
  · intro u hu
    simp [Batch.execute, applyMerges, hu, applyWrites, newBatch]
  · intro hu
    simp [Batch.execute, applyMerges, hu, applyWrites, newBatch]

/-- C8 witness: a single constant merge operator on the absent key `[5]`. -/
theorem c8_witness :
    Batch.execute { ks := [], vs := [], ms := some [([5], [opConst [9]])] }
        storeConstructor =
      some (newBatch, treeSet storeConstructor [5] (some [9]), none) :=
  (c8_merge_chain_semantics storeConstructor [5] [opConst [9]]).1 [9] rfl

/-- C2: when a merge chain's fold fails during `Execute`, the call returns
that operator's error verbatim; the merge chains already applied (the `pre`
part of the drained merge map) stay committed, and neither the remaining
chains nor any plain pending write is applied. -/
theorem c2_merge_failure_aborts (t t1 : Tree) (w : Batch)
    (pre post : List (Bytes × List AssocMerge)) (k : Bytes) (mc : List AssocMerge)
    (e : MergeErr)
    (hms : w.ms = some (pre ++ (k, mc) :: post))
    (hpre : applyMerges t pre = (t1, none))
    (hfail : chainMerge mc k (currentOf t1 k) = Except.error e) :
    Batch.execute w t = some (newBatch, t1, some e) := by
  have h2 : applyMerges t (pre ++ (k, mc) :: post) = (t1, some e) := by
    rw [applyMerges_append, hpre]
    simp only [applyMerges, hfail]
  simp [Batch.execute, hms, h2, newBatch]

/-- C2 witness: the chain on `[2]` fails after the chain on `[1]` committed;
the buffered plain write on `[9]` is not applied and the error is returned. -/
theorem c2_witness :
    Batch.execute
        { ks := [[9]], vs := [some [9]],
          ms := some [([1], [opConst [97]]), ([2], [opFail "boom"]), ([3], [opConst [98]])] }
        storeConstructor =
      some (newBatch, [([1], some [97])], some "boom") :=
  c2_merge_failure_aborts storeConstructor [([1], some [97])]
    { ks := [[9]], vs := [some [9]],
      ms := some [([1], [opConst [97]]), ([2], [opFail "boom"]), ([3], [opConst [98]])] }
    [([1], [opConst [97]])] [([3], [opConst [98]])] [2] [opFail "boom"] "boom"
    rfl rfl rfl

/-- C1: `Execute` applies every merge chain before any plain pending write,
and replays the plain buffer in append order over the merged tree so that the
last buffered entry for a key determines its final value; in particular the
batch `Set(A,"1"); Merge(A, op appending "x"); Set(A,"2")` leaves
`Get(A) == "2"` (`A = [65]`, `"1" = [49]`, `"2" = [50]`, `"x" = [120]`). -/
theorem c1_merges_before_plain_writes (t tm tw : Tree) (w : Batch)
    (hs : TreeSorted t)
    (hm : applyMerges t (w.ms.getD []) = (tm, none))
    (hw : applyWrites tm w.ks w.vs = some tw) :
    Batch.execute w t = some (newBatch, tw, none) ∧
    (∀ q, treeGet tw q =
      match specLastPending w.ks w.vs q with
      | some (some u) => some (some u)
      | some none => none
      | none => treeGet tm q) ∧
    (c1ScenarioBatch.bind (fun bb => Batch.execute bb storeConstructor)).map
        (fun r => (storeGet r.2.1 [65]).1) = some (some [50]) := by
  refine ⟨?_, ?_, rfl⟩
  · simp [Batch.execute, hm, hw, newBatch]
  · intro q
    have hsm : TreeSorted tm := by
      have hx := treeSorted_applyMerges (w.ms.getD []) t hs
      rw [hm] at hx
      exact hx
    exact treeGet_applyWrites w.ks w.vs tm tw hsm hw q

/-- C1 witness: the Set/Merge/Set batch on `A = [65]` executes to a tree whose
only entry is `(A, "2")`, and the last pending write wins. -/
theorem c1_witness :
    Batch.execute
        { ks := [[65], [65]], vs := [some [49], some [50]],
          ms := some [([65], [opAppend [120]])] }
        storeConstructor =
      some (newBatch, [([65], some [50])], none) ∧
    treeGet [([65], some [50])] [65] = some (some [50]) :=
  ⟨(c1_merges_before_plain_writes storeConstructor [([65], some [120])]
      [([65], some [50])]
      { ks := [[65], [65]], vs := [some [49], some [50]],
        ms := some [([65], [opAppend [120]])] }
      treeSorted_nil rfl rfl).1,
   (c1_merges_before_plain_writes storeConstructor [([65], some [120])]
      [([65], some [50])]
      { ks := [[65], [65]], vs := [some [49], some [50]],
        ms := some [([65], [opAppend [120]])] }
      treeSorted_nil rfl rfl).2.1 [65]⟩


end Cznicb
